import Mathlib

/-! Verification development for the Forvo database builder
    (4-create-database.py): a shallow embedding of the metadata
    aggregation, icon resolution, HTML rendering and store-writing
    pipeline, with theorems checking the specification's claims. -/

namespace Forvo

/-- Lowercasing as Python str.lower does on ASCII data (the pipeline only
    compares country names and gender labels case-insensitively). -/
def pyLower (s : String) : String := String.mk (s.data.map Char.toLower)

/-- Value of one hexadecimal digit, as accepted by urllib.parse.unquote. -/
def hexVal? (c : Char) : Option Nat :=
  if '0' ≤ c ∧ c ≤ '9' then some (c.toNat - '0'.toNat)
  else if 'a' ≤ c ∧ c ≤ 'f' then some (c.toNat - 'a'.toNat + 10)
  else if 'A' ≤ c ∧ c ≤ 'F' then some (c.toNat - 'A'.toNat + 10)
  else none

/-- Unicode replacement character emitted for undecodable bytes, matching the
    errors-replace policy of urllib.parse.unquote. -/
def replChar : Char := Char.ofNat 0xFFFD

/-- UTF-8 decoding worker; the fuel argument only bounds the recursion depth
    (every step consumes at least one byte, so fuel equal to the list length
    is always enough) and keeps the recursion structural. -/
def utf8Go : Nat → List Nat → List Char
  | 0, _ => []
  | _, [] => []
  | fuel + 1, b :: rest =>
    if b < 0x80 then Char.ofNat b :: utf8Go fuel rest
    else if 0xC2 ≤ b ∧ b ≤ 0xDF then
      match rest with
      | c1 :: r =>
        if 0x80 ≤ c1 ∧ c1 < 0xC0 then
          Char.ofNat ((b - 0xC0) * 64 + (c1 - 0x80)) :: utf8Go fuel r
        else replChar :: utf8Go fuel rest
      | [] => [replChar]
    else if 0xE0 ≤ b ∧ b ≤ 0xEF then
      match rest with
      | c1 :: c2 :: r =>
        if (0x80 ≤ c1 ∧ c1 < 0xC0) ∧ (0x80 ≤ c2 ∧ c2 < 0xC0) then
          let n := (b - 0xE0) * 4096 + (c1 - 0x80) * 64 + (c2 - 0x80)
          if 0x800 ≤ n ∧ (n < 0xD800 ∨ 0xDFFF < n) then
            Char.ofNat n :: utf8Go fuel r
          else replChar :: utf8Go fuel rest
        else replChar :: utf8Go fuel rest
      | _ => replChar :: utf8Go fuel rest
    else if 0xF0 ≤ b ∧ b ≤ 0xF4 then
      match rest with
      | c1 :: c2 :: c3 :: r =>
        if (0x80 ≤ c1 ∧ c1 < 0xC0) ∧ (0x80 ≤ c2 ∧ c2 < 0xC0) ∧
            (0x80 ≤ c3 ∧ c3 < 0xC0) then
          let n := (b - 0xF0) * 262144 + (c1 - 0x80) * 4096 +
            (c2 - 0x80) * 64 + (c3 - 0x80)
          if 0x10000 ≤ n ∧ n ≤ 0x10FFFF then
            Char.ofNat n :: utf8Go fuel r
          else replChar :: utf8Go fuel rest
        else replChar :: utf8Go fuel rest
      | _ => replChar :: utf8Go fuel rest
    else replChar :: utf8Go fuel rest

/-- UTF-8 decoding of a byte list; valid sequences decode exactly, invalid
    bytes become the replacement character (the replace error policy). -/
def utf8DecodeReplace (bs : List Nat) : List Char := utf8Go bs.length bs

/-- Scanning core of urllib.parse.unquote: maximal runs of percent-hex
    escapes are collected as bytes (the pend accumulator) and decoded as
    UTF-8; a percent sign not followed by two hex digits stays literal. -/
def unquoteGo : List Char → List Nat → List Char
  | '%' :: a :: b :: rest, pend =>
    match hexVal? a, hexVal? b with
    | some ha, some hb => unquoteGo rest (pend ++ [16 * ha + hb])
    | _, _ => utf8DecodeReplace pend ++ ('%' :: unquoteGo (a :: b :: rest) [])
  | c :: rest, pend => utf8DecodeReplace pend ++ (c :: unquoteGo rest [])
  | [], pend => utf8DecodeReplace pend

/-- URL percent-decoding: urllib.parse.unquote with UTF-8 and replace. -/
def unquote (s : String) : String := String.mk (unquoteGo s.data [])

/-- One entry of country_mappings.json; the core reads original_name and
    iso_code only. A null iso_code is rendered by Python string formatting
    as the text None. -/
structure CountryMapping where
  original_name : String
  iso_code : Option String
deriving DecidableEq

/-- State of country_mappings.json on disk when the run starts. -/
inductive MappingsFile where
  | missing
  | malformed
  | wellFormed (ms : List CountryMapping)
deriving DecidableEq

/-- Assignment d[k] = v on an insertion-ordered dictionary (Python dict):
    an existing key keeps its position, a new key goes last. -/
def dictSet (d : List (String × CountryMapping)) (k : String)
    (v : CountryMapping) : List (String × CountryMapping) :=
  match d with
  | [] => [(k, v)]
  | (k0, v0) :: rest =>
    if k0 = k then (k0, v) :: rest else (k0, v0) :: dictSet rest k v

/-- Dictionary lookup d.get(k). -/
def dictGet (d : List (String × CountryMapping)) (k : String) :
    Option CountryMapping :=
  match d with
  | [] => none
  | (k0, v0) :: rest => if k0 = k then some v0 else dictGet rest k

/-- ForvoProcessor.load_country_mappings: builds the lookup keyed by the
    lowercased original_name; a missing file or malformed JSON is logged and
    yields the empty mapping rather than aborting the run. -/
def load_country_mappings : MappingsFile → List (String × CountryMapping)
  | .missing => []
  | .malformed => []
  | .wellFormed ms =>
    ms.foldl (fun d m => dictSet d (pyLower m.original_name) m) []

/-- The environment one run works in: the loaded country mappings and the
    filesystem existence tests the code performs (icon patterns under
    icons_dir, root-relative language/user/headword audio paths). -/
structure Env where
  mappings : List (String × CountryMapping)
  iconFile : String → Bool
  audioFile : String → Bool

/-- Text form of the iso_code field inside an icon filename pattern. -/
def isoStr : Option String → String
  | some s => s
  | none => "None"

/-- First icon pattern that exists under icons_dir, as icons/pattern. -/
def firstIcon (env : Env) : List String → Option String
  | [] => none
  | p :: rest => if env.iconFile p then some ("icons/" ++ p) else firstIcon env rest

/-- ForvoProcessor.get_icon_path: gender-prefix normalization, lowercase
    country lookup, then the three filename patterns in order. -/
def get_icon_path (env : Env) (gender country : String) : Option String :=
  let gpfx :=
    if gender ≠ "" ∧ (pyLower gender = "male" ∨ pyLower gender = "female")
    then pyLower gender ++ "_" else ""
  match dictGet env.mappings (pyLower country) with
  | none => none
  | some country_info =>
    let iso_code := isoStr country_info.iso_code
    firstIcon env
      [gpfx ++ iso_code ++ ".svg", "_" ++ iso_code ++ ".svg", iso_code ++ ".svg"]

/-- First audio path among the accepted extensions that exists on disk. -/
def firstAudio (env : Env) (language username headword : String) :
    List String → Option String
  | [] => none
  | ext :: rest =>
    let p := language ++ "/" ++ username ++ "/" ++ headword ++ ext
    if env.audioFile p then some p
    else firstAudio env language username headword rest

/-- ForvoProcessor.check_audio_file_exists: extension priority .opus, .mp3,
    .ogg under language/username/headword. -/
def check_audio_file_exists (env : Env) (language username headword : String) :
    Option String :=
  firstAudio env language username headword [".opus", ".mp3", ".ogg"]

/-- One collected audio record, as built per accepted metadata line. -/
structure AudioRecord where
  username : String
  gender : String
  country : String
  votes : Int
  file_path : String
  download_url : String
  audio_id : Int
deriving DecidableEq

/-- Insert a record into a votes-descending list, before the first element
    with at most its votes: the later elements of the input are inserted
    first (sortVotesDesc folds from the right), which makes the combination
    the stable descending sort computed by sorted with reverse set. -/
def insertByVotes (a : AudioRecord) : List AudioRecord → List AudioRecord
  | [] => [a]
  | b :: rest =>
    if b.votes ≤ a.votes then a :: b :: rest else b :: insertByVotes a rest

/-- Stable sort by votes descending, as sorted(audio_data, key votes,
    reverse) computes in generate_html_content. -/
def sortVotesDesc : List AudioRecord → List AudioRecord
  | [] => []
  | a :: rest => insertByVotes a (sortVotesDesc rest)

/-- Opening wrapper element of every rendered snippet. -/
def wrapperOpen : String := "<div class=\"audio-pronunciations\">"

/-- The wrapper with no items and no stylesheet: the rendering of a group in
    which every record was skipped. -/
def bareWrapper : String := "<div class=\"audio-pronunciations\"></div>"

/-- Tooltip text for one pronunciation link. -/
def titleText (a : AudioRecord) : String :=
  let base := a.username ++ " (" ++ a.country ++ ")"
  if a.votes > 0 then base ++ " - " ++ toString a.votes ++ " votes" else base

/-- The audio_html block rendered for one surviving record. -/
def audioItemHtml (a : AudioRecord) (icon_path : String) : String :=
  "\n            <div class=\"pronunciation-item\">\n                <a href=\"sound://"
    ++ a.file_path ++ "\" title=\"" ++ titleText a
    ++ "\">\n                    <img src=\"" ++ icon_path
    ++ "\" \n                         alt=\"" ++ a.username
    ++ "\" \n                         class=\"pronunciation-icon\" \n                         style=\"width: 24px; height: 24px; margin: 2px; border: none;\">\n                </a>\n                "
    ++ (if a.votes > 0 then
          "<span class=\"vote-count\">(" ++ toString a.votes ++ ")</span>"
        else "")
    ++ "\n            </div>"

/-- The shared stylesheet block appended when at least one record survived. -/
def styleBlock : String :=
  "\n            <style>\n            .audio-pronunciations \x7b\n                display: flex;\n                flex-wrap: wrap;\n                gap: 5px;\n                align-items: center;\n            \x7d\n            .pronunciation-item \x7b\n                display: inline-flex;\n                align-items: center;\n                gap: 2px;\n            \x7d\n            .pronunciation-item a \x7b\n                text-decoration: none;\n                border: none;\n                display: inline-block;\n            \x7d\n            .pronunciation-icon:hover \x7b\n                opacity: 0.7;\n                transform: scale(1.1);\n                transition: all 0.2s ease;\n            \x7d\n            .vote-count \x7b\n                font-size: 0.8em;\n                color: #666;\n                margin-left: 2px;\n            \x7d\n            </style>"

/-- Per-record loop of generate_html_content: a record whose icon cannot be
    resolved is skipped, every other record contributes one block. -/
def renderItems (env : Env) : List AudioRecord → List String
  | [] => []
  | a :: rest =>
    match get_icon_path env a.gender a.country with
    | none => renderItems env rest
    | some icon_path => audioItemHtml a icon_path :: renderItems env rest

/-- Empty-separator join of the html_parts list. -/
def concatParts : List String → String
  | [] => ""
  | p :: ps => p ++ concatParts ps

/-- ForvoProcessor.generate_html_content: wrapper, blocks for the surviving
    records in votes-descending order, the stylesheet only when some record
    survived, closing tag. -/
def generate_html_content (env : Env) (audio_data : List AudioRecord) : String :=
  let sorted_audio := sortVotesDesc audio_data
  let items := renderItems env sorted_audio
  let parts := wrapperOpen :: items
  let parts := if items ≠ [] then parts ++ [styleBlock] else parts
  concatParts (parts ++ ["</div>"])

/-- One JSON object from metadata.jsonl; a key missing from the object is
    none (the code reads every key through entry.get with a default). -/
structure RawEntry where
  language : Option String
  headword : Option String
  query_word : Option String
  origin : Option (List String)
  votes : Option Int
  download_url : Option String
  id : Option Int
deriving DecidableEq

/-- One line of metadata.jsonl: undecodable JSON or a parsed object. -/
inductive LogLine where
  | malformed
  | entry (e : RawEntry)
deriving DecidableEq

/-- Positional extraction of username, gender and country from the origin
    list, with the lenient defaults of process_metadata. -/
def extractOrigin (origin : List String) : String × String × String :=
  if origin.length ≥ 3 then
    (origin.getD 0 "", origin.getD 1 "", origin.getD 2 "")
  else
    (if origin ≠ [] then origin.getD 0 "" else "unknown",
     if origin.length > 1 then origin.getD 1 "" else "",
     if origin.length > 2 then origin.getD 2 "" else "")

/-- The per-line body of process_metadata: requires non-empty language and
    headword, applies the query_word correction, extracts the origin triple,
    and resolves the audio file; the aggregation key and the collected record
    result, or none when the line is skipped. -/
def processLine (env : Env) (e : RawEntry) :
    Option ((String × String) × AudioRecord) :=
  let language := e.language.getD ""
  let headword0 := e.headword.getD ""
  if language = "" ∨ headword0 = "" then none
  else
    let query_word := e.query_word.getD headword0
    let headword := if query_word ≠ headword0 then unquote query_word else headword0
    let org := extractOrigin (e.origin.getD [])
    match check_audio_file_exists env language org.1 headword with
    | none => none
    | some file_path =>
      some ((language, headword),
        ⟨org.1, org.2.1, org.2.2, e.votes.getD 0, file_path,
          e.download_url.getD "", e.id.getD 0⟩)

/-- Word groups: the insertion-ordered word_audio_map. -/
abbrev GroupMap := List ((String × String) × List AudioRecord)

/-- Appending a record under a key of a defaultdict of lists: an existing key
    keeps its position, a new key goes last. -/
def mapAppend : GroupMap → (String × String) → AudioRecord → GroupMap
  | [], k, r => [(k, [r])]
  | (k0, l) :: rest, k, r =>
    if k0 = k then (k0, l ++ [r]) :: rest else (k0, l) :: mapAppend rest k r

/-- Group list stored under a key (empty when the key is absent). -/
def lookupGroup : GroupMap → (String × String) → List AudioRecord
  | [], _ => []
  | (k0, l) :: rest, k => if k0 = k then l else lookupGroup rest k

/-- The keys of a group map in insertion order. -/
def keysOf (m : GroupMap) : List (String × String) := m.map (fun p => p.1)

/-- Folding one log line into the group map; skipped lines leave it as is. -/
def aggStep (env : Env) (m : GroupMap) : LogLine → GroupMap
  | .malformed => m
  | .entry e =>
    match processLine env e with
    | none => m
    | some kr => mapAppend m kr.1 kr.2

/-- The streaming phase of process_metadata: the word_audio_map after the
    whole log has been read. -/
def aggregate (env : Env) (log : List LogLine) : GroupMap :=
  log.foldl (aggStep env) []

/-- The record a given line contributes to key k, if any. -/
def lineRecordFor (env : Env) (k : String × String) : LogLine → Option AudioRecord
  | .malformed => none
  | .entry e =>
    match processLine env e with
    | some kr => if kr.1 = k then some kr.2 else none
    | none => none

/-- All records the log contributes to key k, in log order: exactly the log
    records for that key whose audio file was resolvable on disk. -/
def recordsFor (env : Env) (log : List LogLine) (k : String × String) :
    List AudioRecord :=
  log.filterMap (lineRecordFor env k)

/-- A row of the words table (created_at is write-only and not modeled). -/
structure WordsRow where
  id : Nat
  language : String
  headword : String
  html_content : String
  audio_count : Nat
deriving DecidableEq

/-- A row of the audio_files table; its own autoincrement id is never read
    and is not modeled, word_id is the words rowid captured from lastrowid. -/
structure AudioRow where
  word_id : Nat
  username : String
  gender : String
  country : String
  votes : Int
  file_path : String
  download_url : String
  audio_id : Int
deriving DecidableEq

/-- A row of the mdx table of the simple store (id and created_at are
    write-only and not modeled). -/
structure MdxRow where
  entry : String
  paraphrase : String
  language : String
  audio_count : Nat
deriving DecidableEq

/-- The two stores; nextWordId is the AUTOINCREMENT counter of the words
    table, monotone and never reused, persisted in the database file. -/
structure Stores where
  words : List WordsRow
  audio : List AudioRow
  mdx : List MdxRow
  nextWordId : Nat
deriving DecidableEq

/-- Freshly created tables: init_databases on a new pair of database files. -/
def initStores : Stores := ⟨[], [], [], 1⟩

/-- The unique key of a words row. -/
def wkey (r : WordsRow) : String × String := (r.language, r.headword)

/-- The unique key of an mdx row. -/
def mkey (r : MdxRow) : String × String := (r.entry, r.language)

/-- The words row stored under a (language, headword) key. -/
def lookupWords (S : Stores) (k : String × String) : Option WordsRow :=
  S.words.find? (fun r => decide (wkey r = k))

/-- The mdx row stored under an (entry, language) key. -/
def lookupMdx (S : Stores) (k : String × String) : Option MdxRow :=
  S.mdx.find? (fun r => decide (mkey r = k))

/-- The audio_files row written for one record of a group. -/
def mkAudioRow (wid : Nat) (a : AudioRecord) : AudioRow :=
  ⟨wid, a.username, a.gender, a.country, a.votes, a.file_path,
    a.download_url, a.audio_id⟩

/-- One iteration of the write loop of process_metadata: render the group,
    INSERT OR REPLACE the words row (the conflicting row is removed and a
    fresh autoincrement rowid is assigned), append one audio_files row per
    record of the group under the new rowid, INSERT OR REPLACE the mdx row. -/
def flushGroup (env : Env) (S : Stores)
    (g : (String × String) × List AudioRecord) : Stores :=
  let html := generate_html_content env g.2
  let wid := S.nextWordId
  ⟨S.words.filter (fun r => decide (wkey r ≠ g.1)) ++
      [⟨wid, g.1.1, g.1.2, html, g.2.length⟩],
   S.audio ++ g.2.map (mkAudioRow wid),
   S.mdx.filter (fun r => decide (mkey r ≠ (g.1.2, g.1.1))) ++
      [⟨g.1.2, html, g.1.1, g.2.length⟩],
   wid + 1⟩

/-- The whole write loop over a group map, all of it persisted (a run that
    reaches the final commit). -/
def flushAll (env : Env) (S : Stores) (gs : GroupMap) : Stores :=
  gs.foldl (flushGroup env) S

/-- Staged-versus-committed state of the two connections: staged is the
    working state, committed is what a close without a commit leaves on disk
    (sqlite rolls the open transaction back). -/
structure Session where
  committed : Stores
  staged : Stores
  wordCount : Nat

/-- One group of the write loop with the batch cadence: the group is staged
    and every 1000th successfully processed group commits both stores. -/
def stepGroup (env : Env) (sess : Session)
    (g : (String × String) × List AudioRecord) : Session :=
  let staged := flushGroup env sess.staged g
  let n := sess.wordCount + 1
  if n % 1000 = 0 then ⟨staged, staged, n⟩ else ⟨sess.committed, staged, n⟩

/-- The write loop from a given on-disk state over a list of groups. -/
def processGroups (env : Env) (S : Stores) (gs : GroupMap) : Session :=
  gs.foldl (stepGroup env) ⟨S, S, 0⟩

/-- Final on-disk state of an uninterrupted run of the pipeline starting
    from the on-disk state S: stream the log, flush every group, final
    commit. -/
def finalStoreFrom (env : Env) (S : Stores) (log : List LogLine) : Stores :=
  flushAll env S (aggregate env log)

/-- Final on-disk state of an uninterrupted run on fresh database files. -/
def finalStore (env : Env) (log : List LogLine) : Stores :=
  finalStoreFrom env initStores log

/-- On-disk state left by a run whose process receives the stop signal after
    j groups of the write loop: the signal handler closes both connections
    without committing, so the store rolls back to the last batch commit. -/
def interruptedStore (env : Env) (log : List LogLine) (j : Nat) : Stores :=
  (processGroups env initStores ((aggregate env log).take j)).committed

/-- The filesystem and inputs one run sees. -/
structure FS where
  rootExists : Bool
  iconsExists : Bool
  metadataExists : Bool
  iconFile : String → Bool
  audioFile : String → Bool
  mappingsFile : MappingsFile
  log : List LogLine

/-- The environment the constructor builds (mappings loaded once). -/
def envOf (fs : FS) : Env :=
  ⟨load_country_mappings fs.mappingsFile, fs.iconFile, fs.audioFile⟩

/-- Outcome of ForvoProcessor.run: fatal before init_databases runs (neither
    store touched), fatal after init_databases (tables created and committed,
    rows as recorded), or completed. -/
inductive RunOutcome where
  | fatalBeforeInit
  | fatalAfterInit (s : Stores)
  | completed (s : Stores)
deriving DecidableEq

/-- ForvoProcessor.run on fresh database files. The audio directory is the
    root directory itself (line 19), so its existence check repeats the root
    check; the metadata.jsonl check happens inside process_metadata, after
    init_databases has created and committed the tables of both stores. -/
def runProgram (fs : FS) : RunOutcome :=
  if fs.rootExists = false then .fatalBeforeInit
  else if fs.rootExists = false then .fatalBeforeInit
  else if fs.iconsExists = false then .fatalBeforeInit
  else if fs.metadataExists = false then .fatalAfterInit initStores
  else .completed (finalStore (envOf fs) fs.log)

/-- Content of a words row apart from its key and its execution-dependent
    autoincrement id. -/
def wcontent (w : WordsRow) : String × Nat := (w.html_content, w.audio_count)

/-- Payload tuple of stored audio rows and of collected records. -/
abbrev AudioPayload :=
  String × String × String × Int × String × String × Int

/-- Payload of an audio_files row without its word_id linkage. -/
def payloadOf (a : AudioRow) : AudioPayload :=
  (a.username, a.gender, a.country, a.votes, a.file_path, a.download_url,
    a.audio_id)

/-- Payload an audio record is stored with. -/
def recPayload (r : AudioRecord) : AudioPayload :=
  (r.username, r.gender, r.country, r.votes, r.file_path, r.download_url,
    r.audio_id)

/-- The audio_files child rows of the current words row of key k: the rows
    joined through the live word_id (rows left behind by an earlier replaced
    words row have a superseded word_id and do not join). -/
def childPayloads (S : Stores) (k : String × String) : List AudioPayload :=
  match lookupWords S k with
  | none => []
  | some w => (S.audio.filter (fun a => decide (a.word_id = w.id))).map payloadOf

/-- Bound invariant of the stores: every rowid in use is below the
    autoincrement counter, so the next assigned rowid is fresh. -/
def IdBound (S : Stores) : Prop :=
  (∀ r ∈ S.words, r.id < S.nextWordId) ∧
    (∀ a ∈ S.audio, a.word_id < S.nextWordId)

/-- Icon resolution exactly as the claim words it: normalize the gender to
    male, female or empty, look the country up case-insensitively, then try
    the literal candidate templates gender_iso.svg, _iso.svg and iso.svg in
    strict priority order. -/
def iconResolveClaim (env : Env) (gender country : String) : Option String :=
  let g := if pyLower gender = "male" ∨ pyLower gender = "female"
    then pyLower gender else ""
  match dictGet env.mappings (pyLower country) with
  | none => none
  | some country_info =>
    let iso_code := isoStr country_info.iso_code
    firstIcon env
      [g ++ "_" ++ iso_code ++ ".svg", "_" ++ iso_code ++ ".svg",
        iso_code ++ ".svg"]

/-- Icon resolution as the amended claim words it: the first candidate is
    the normalized gender prefix (male_ or female_ or nothing) followed by
    iso.svg, so with empty normalized gender it is iso.svg itself. -/
def iconResolveAmended (env : Env) (gender country : String) : Option String :=
  let gpfx := if pyLower gender = "male" ∨ pyLower gender = "female"
    then pyLower gender ++ "_" else ""
  match dictGet env.mappings (pyLower country) with
  | none => none
  | some country_info =>
    let iso_code := isoStr country_info.iso_code
    firstIcon env
      [gpfx ++ iso_code ++ ".svg", "_" ++ iso_code ++ ".svg",
        iso_code ++ ".svg"]

/-! Concrete inputs used to evaluate the theorems on closed instances. -/

/-- Environment with no country mappings and a single audio file on disk. -/
def envNoIcons : Env := ⟨[], fun _ => false, fun p => p == "en/alice/cat.opus"⟩

/-- A well-formed metadata line for (en, cat) by alice. -/
def entryCat : RawEntry :=
  ⟨some "en", some "cat", none, some ["alice", "female", "France"], some 5,
    some "", some 3⟩

/-- A two-line log: the cat line plus one undecodable line. -/
def logCat : List LogLine := [.entry entryCat, .malformed]

/-- The words row the cat log produces under empty country mappings. -/
def rowCat : WordsRow := ⟨1, "en", "cat", bareWrapper, 1⟩

/-- Environment for the icon-resolution counterexample: Japan maps to jp and
    both _jp.svg and jp.svg exist on disk. -/
def c5Env : Env :=
  ⟨[("japan", ⟨"Japan", some "jp"⟩)],
    fun p => p == "_jp.svg" || p == "jp.svg", fun _ => false⟩

/-- Environment for the headword-correction example: the audio file lives
    under the corrected headword. -/
def c7Env : Env := ⟨[], fun _ => false, fun p => p == "en/alice/rün.opus"⟩

/-- Metadata line whose query_word is the percent-encoded r-u-umlaut-n. -/
def c7Entry : RawEntry :=
  ⟨some "en", some "run", some "r%C3%BCn", some ["alice", "female", "Japan"],
    some 5, some "u", some 9⟩

/-- Filesystem with the icons directory missing. -/
def fsMissingIcons : FS :=
  ⟨true, false, true, fun _ => false, fun _ => false, .missing, []⟩

/-- Filesystem with metadata.jsonl missing but both directories present. -/
def fsMissingMetadata : FS :=
  ⟨true, true, false, fun _ => false, fun _ => false, .missing, []⟩

/-- Filesystem with all required inputs present but country_mappings.json
    missing, and the cat log on disk. -/
def fsMappingsMissing : FS :=
  ⟨true, true, true, fun _ => false, fun p => p == "en/alice/cat.opus",
    .missing, logCat⟩

/-! Theorems. -/

/-- C6: the (username, gender, country) triple is extracted positionally
    from the origin list with lenient defaulting: length 0 gives username
    unknown and empty gender and country, length 1 takes only the username,
    length 2 adds the gender, length 3 or more takes all three and ignores
    the extra elements. -/
theorem c6_origin_defaulting (origin : List String) :
    extractOrigin origin =
      match origin with
      | [] => ("unknown", "", "")
      | [u] => (u, "", "")
      | [u, g] => (u, g, "")
      | u :: g :: c :: _ => (u, g, c) := by
  match origin with
  | [] => rfl
  | [u] => rfl
  | [u, g] => rfl
  | u :: g :: c :: rest =>
    have h : (u :: g :: c :: rest).length ≥ 3 := by
      simp [List.length_cons]
    simp only [extractOrigin, if_pos h]
    rfl

/-- C5 counterexample: with gender normalized to empty, the code's first
    candidate filename is jp.svg (the gender prefix is empty), not _jp.svg
    as the claim's literal template gender_iso.svg states; with both files
    on disk the two resolutions differ. -/
theorem c5_counterexample :
    get_icon_path c5Env "" "Japan" = some "icons/jp.svg" ∧
    iconResolveClaim c5Env "" "Japan" = some "icons/_jp.svg" ∧
    get_icon_path c5Env "" "Japan" ≠ iconResolveClaim c5Env "" "Japan" :=
  ⟨rfl, rfl, by decide⟩

/-- C5 as amended: icon resolution normalizes the gender, fails on a country
    absent from the mapping, and tries the candidates prefix-iso.svg,
    _iso.svg, iso.svg in strict priority order, where the prefix is male_,
    female_ or empty; the first existing candidate is returned as a relative
    path and resolution fails when none exists. -/
theorem c5_amended_icon_resolution (env : Env) (gender country : String) :
    get_icon_path env gender country = iconResolveAmended env gender country := by
  unfold get_icon_path iconResolveAmended
  by_cases h : pyLower gender = "male" ∨ pyLower gender = "female"
  · have hne : gender ≠ "" := by
      intro hg
      subst hg
      rcases h with h | h <;> exact absurd h (by decide)
    rw [if_pos ⟨hne, h⟩, if_pos h]
  · have : ¬(gender ≠ "" ∧ (pyLower gender = "male" ∨ pyLower gender = "female")) := by
      intro hc
      exact h hc.2
    rw [if_neg this, if_neg h]

/-- Characterization of the key a processed line is stored under. -/
theorem processLine_key (env : Env) (e : RawEntry) (k : String × String)
    (r : AudioRecord) (h : processLine env e = some (k, r)) :
    k = (e.language.getD "",
      if e.query_word.getD (e.headword.getD "") ≠ e.headword.getD ""
      then unquote (e.query_word.getD (e.headword.getD ""))
      else e.headword.getD "") := by
  unfold processLine at h
  by_cases hval : e.language.getD "" = "" ∨ e.headword.getD "" = ""
  · rw [if_pos hval] at h
    exact absurd h (by simp)
  · rw [if_neg hval] at h
    simp only at h
    cases hca : check_audio_file_exists env (e.language.getD "")
        (extractOrigin (e.origin.getD [])).1
        (if e.query_word.getD (e.headword.getD "") ≠ e.headword.getD ""
         then unquote (e.query_word.getD (e.headword.getD ""))
         else e.headword.getD "") with
    | none =>
      rw [hca] at h
      exact absurd h (by simp)
    | some fp =>
      rw [hca] at h
      have h1 := (Option.some.injEq _ _).mp h
      exact (congrArg Prod.fst h1).symm

/-- C7: when the parsed line carries a query_word different from its
    headword field, the record is keyed under the URL-decoded query_word;
    when the query_word is absent or equal to the headword, the headword is
    used unchanged. -/
theorem c7_headword_correction (env : Env) (e : RawEntry)
    (k : String × String) (r : AudioRecord)
    (h : processLine env e = some (k, r)) :
    (∀ q, e.query_word = some q → q ≠ e.headword.getD "" → k.2 = unquote q) ∧
    ((e.query_word = none ∨ e.query_word = some (e.headword.getD "")) →
      k.2 = e.headword.getD "") := by
  have hk := processLine_key env e k r h
  constructor
  · intro q hq hne
    rw [hk]
    simp [hq, hne]
  · intro hm
    rw [hk]
    rcases hm with hm | hm <;> simp [hm]

/-- C7 witness: the log's stale headword run is replaced by the decoded
    query word, so the record is keyed under (en, rün). -/
theorem c7_headword_correction_witness :
    processLine c7Env c7Entry =
      some ((("en" : String), ("rün" : String)),
        ⟨"alice", "female", "Japan", 5, "en/alice/rün.opus", "u", 9⟩) ∧
    ("rün" : String) = unquote "r%C3%BCn" :=
  ⟨rfl,
    (c7_headword_correction c7Env c7Entry _ _ rfl).1 "r%C3%BCn" rfl (by decide)⟩

/-- C4 counterexample: with the directories present but metadata.jsonl
    missing, the run fails fatally only inside process_metadata, after
    init_databases has already created and committed the tables of both
    stores — not before any store mutation as the claim states. -/
theorem c4_counterexample :
    runProgram fsMissingMetadata = .fatalAfterInit initStores ∧
    runProgram fsMissingMetadata ≠ .fatalBeforeInit :=
  ⟨rfl, by decide⟩

/-- C4 as amended: a missing root, audio or icons directory aborts the run
    before either store is touched; a missing metadata.jsonl aborts after
    the tables of both stores have been created and committed, but before
    any row is written. -/
theorem c4_amended_setup_failure (fs : FS) :
    ((fs.rootExists = false ∨ fs.iconsExists = false) →
      runProgram fs = .fatalBeforeInit) ∧
    (fs.rootExists = true → fs.iconsExists = true → fs.metadataExists = false →
      runProgram fs = .fatalAfterInit initStores ∧
      initStores.words = [] ∧ initStores.audio = [] ∧ initStores.mdx = []) := by
  constructor
  · intro h
    rcases h with h | h <;> simp [runProgram, h]
  · intro h1 h2 h3
    refine ⟨?_, rfl, rfl, rfl⟩
    simp [runProgram, h1, h2, h3]

/-- C4 witness: the amended statement evaluated on a filesystem with the
    icons directory missing and on one with metadata.jsonl missing. -/
theorem c4_amended_setup_failure_witness :
    runProgram fsMissingIcons = .fatalBeforeInit ∧
    (runProgram fsMissingMetadata = .fatalAfterInit initStores ∧
      initStores.words = [] ∧ initStores.audio = [] ∧ initStores.mdx = []) :=
  ⟨(c4_amended_setup_failure fsMissingIcons).1 (Or.inr rfl),
    (c4_amended_setup_failure fsMissingMetadata).2 rfl rfl rfl⟩

/-- C2: divergence of the signal path from the claim, evaluated on a log
    that stages one group. The signal handler closes both connections and
    exits at once, so the staged-but-uncommitted group is rolled back: the
    on-disk store after an interruption one group into the write loop has no
    words row, while the staged state the claim says gets a final commit
    holds the row, and equals the store of an uninterrupted run. The breaks
    on the interrupted flag and the commit after the loop are unreachable,
    because the handler never returns. -/
theorem c2_interruption_rolls_back :
    (interruptedStore envNoIcons logCat 1).words = [] ∧
    (processGroups envNoIcons initStores
        ((aggregate envNoIcons logCat).take 1)).staged.words = [rowCat] ∧
    (finalStore envNoIcons logCat).words = [rowCat] ∧
    interruptedStore envNoIcons logCat 1 ≠ finalStore envNoIcons logCat :=
  ⟨rfl, rfl, rfl, by decide⟩

/-- Members of an insertion: the inserted record or a member of the list. -/
theorem mem_insertByVotes {x a : AudioRecord} {m : List AudioRecord}
    (h : x ∈ insertByVotes a m) : x = a ∨ x ∈ m := by
  induction m with
  | nil => simpa [insertByVotes] using h
  | cons b rest ih =>
    simp only [insertByVotes] at h
    by_cases hba : b.votes ≤ a.votes
    · rw [if_pos hba] at h
      rcases List.mem_cons.mp h with rfl | h
      · exact Or.inl rfl
      · exact Or.inr h
    · rw [if_neg hba] at h
      rcases List.mem_cons.mp h with rfl | h
      · exact Or.inr (List.mem_cons_self _ _)
      · rcases ih h with rfl | h
        · exact Or.inl rfl
        · exact Or.inr (List.mem_cons_of_mem _ h)

/-- Inserting into a votes-descending list keeps it votes-descending. -/
theorem pairwise_insertByVotes {a : AudioRecord} {m : List AudioRecord}
    (h : m.Pairwise (fun x y => y.votes ≤ x.votes)) :
    (insertByVotes a m).Pairwise (fun x y => y.votes ≤ x.votes) := by
  induction m with
  | nil => simp [insertByVotes]
  | cons b rest ih =>
    rcases List.pairwise_cons.mp h with ⟨hb, hrest⟩
    simp only [insertByVotes]
    by_cases hba : b.votes ≤ a.votes
    · rw [if_pos hba]
      refine List.pairwise_cons.mpr ⟨?_, h⟩
      intro x hx
      rcases List.mem_cons.mp hx with rfl | hx
      · exact hba
      · exact le_trans (hb x hx) hba
    · rw [if_neg hba]
      refine List.pairwise_cons.mpr ⟨?_, ih hrest⟩
      intro x hx
      rcases mem_insertByVotes hx with rfl | hx
      · omega
      · exact hb x hx

/-- Insertion permutes the record onto the list. -/
theorem perm_insertByVotes (a : AudioRecord) (m : List AudioRecord) :
    List.Perm (insertByVotes a m) (a :: m) := by
  induction m with
  | nil => simp [insertByVotes]
  | cons b rest ih =>
    simp only [insertByVotes]
    by_cases hba : b.votes ≤ a.votes
    · rw [if_pos hba]
    · rw [if_neg hba]
      exact (ih.cons b).trans (List.Perm.swap a b rest)

/-- Records of a fixed vote count: insertion puts the new record first when
    it has that count and changes nothing otherwise, because the records it
    passes over all have strictly more votes. -/
theorem filter_insertByVotes (a : AudioRecord) (m : List AudioRecord) (v : Int) :
    (insertByVotes a m).filter (fun r => decide (r.votes = v)) =
      if a.votes = v
      then a :: m.filter (fun r => decide (r.votes = v))
      else m.filter (fun r => decide (r.votes = v)) := by
  induction m with
  | nil => by_cases hav : a.votes = v <;> simp [insertByVotes, hav]
  | cons b rest ih =>
    simp only [insertByVotes]
    by_cases hba : b.votes ≤ a.votes
    · rw [if_pos hba]
      by_cases hav : a.votes = v <;> simp [List.filter_cons, hav]
    · rw [if_neg hba]
      by_cases hbv : b.votes = v
      · by_cases hav : a.votes = v
        · exact absurd (le_of_eq (hbv.trans hav.symm)) hba
        · simp [List.filter_cons, hbv, hav, ih]
      · by_cases hav : a.votes = v <;> simp [List.filter_cons, hbv, hav, ih]

/-- The sort of generate_html_content is votes-descending. -/
theorem sortVotesDesc_pairwise (l : List AudioRecord) :
    (sortVotesDesc l).Pairwise (fun x y => y.votes ≤ x.votes) := by
  induction l with
  | nil => simp [sortVotesDesc]
  | cons a rest ih => exact pairwise_insertByVotes ih

/-- The sort of generate_html_content permutes its input. -/
theorem sortVotesDesc_perm (l : List AudioRecord) :
    List.Perm (sortVotesDesc l) l := by
  induction l with
  | nil => rfl
  | cons a rest ih =>
    exact (perm_insertByVotes a (sortVotesDesc rest)).trans (ih.cons a)

/-- The sort of generate_html_content is stable: records of any fixed vote
    count keep their input order. -/
theorem sortVotesDesc_stable (l : List AudioRecord) (v : Int) :
    (sortVotesDesc l).filter (fun r => decide (r.votes = v)) =
      l.filter (fun r => decide (r.votes = v)) := by
  induction l with
  | nil => rfl
  | cons a rest ih =>
    simp only [sortVotesDesc]
    rw [filter_insertByVotes]
    by_cases hav : a.votes = v <;> simp [List.filter_cons, hav, ih]

/-- The rendering loop emits one block per record surviving icon resolution,
    in list order. -/
theorem renderItems_eq (env : Env) (m : List AudioRecord) :
    renderItems env m =
      (m.filter (fun r => (get_icon_path env r.gender r.country).isSome)).map
        (fun r =>
          match get_icon_path env r.gender r.country with
          | some icon_path => audioItemHtml r icon_path
          | none => "") := by
  induction m with
  | nil => rfl
  | cons a rest ih =>
    cases hico : get_icon_path env a.gender a.country with
    | none => simp [renderItems, hico, List.filter_cons, ih]
    | some icon_path => simp [renderItems, hico, List.filter_cons, ih]

/-- C8: the rendered HTML is the wrapper followed by the blocks of the
    surviving records of the votes-descending sort of the input (then the
    stylesheet when any survived, then the closing tag), and that sort is
    descending, a permutation of the input, and stable: records with equal
    vote counts keep their relative input order. -/
theorem c8_sorted_stable_rendering (env : Env) (l : List AudioRecord) :
    (sortVotesDesc l).Pairwise (fun x y => y.votes ≤ x.votes) ∧
    List.Perm (sortVotesDesc l) l ∧
    (∀ v : Int, (sortVotesDesc l).filter (fun r => decide (r.votes = v)) =
      l.filter (fun r => decide (r.votes = v))) ∧
    generate_html_content env l =
      concatParts (wrapperOpen :: (renderItems env (sortVotesDesc l) ++
        (if renderItems env (sortVotesDesc l) ≠ [] then [styleBlock] else []) ++
        ["</div>"])) ∧
    renderItems env (sortVotesDesc l) =
      ((sortVotesDesc l).filter
        (fun r => (get_icon_path env r.gender r.country).isSome)).map
        (fun r =>
          match get_icon_path env r.gender r.country with
          | some icon_path => audioItemHtml r icon_path
          | none => "") := by
  refine ⟨sortVotesDesc_pairwise l, sortVotesDesc_perm l,
    sortVotesDesc_stable l, ?_, renderItems_eq env (sortVotesDesc l)⟩
  unfold generate_html_content
  by_cases hit : renderItems env (sortVotesDesc l) = [] <;>
    simp [hit, List.cons_append, List.append_assoc]

/-- Appending under a key extends exactly that key's group. -/
theorem lookupGroup_mapAppend_same (m : GroupMap) (k : String × String)
    (r : AudioRecord) :
    lookupGroup (mapAppend m k r) k = lookupGroup m k ++ [r] := by
  induction m with
  | nil => simp [mapAppend, lookupGroup]
  | cons p rest ih =>
    obtain ⟨k0, l⟩ := p
    by_cases h : k0 = k <;> simp [mapAppend, lookupGroup, h, ih]

/-- Unfolding of the key list of a nonempty group map. -/
theorem keysOf_cons (k0 : String × String) (l : List AudioRecord)
    (rest : GroupMap) : keysOf ((k0, l) :: rest) = k0 :: keysOf rest := rfl

/-- Appending under a key leaves every other key's group unchanged. -/
theorem lookupGroup_mapAppend_ne (m : GroupMap) (k k' : String × String)
    (r : AudioRecord) (h : k ≠ k') :
    lookupGroup (mapAppend m k r) k' = lookupGroup m k' := by
  induction m with
  | nil => simp [mapAppend, lookupGroup, h]
  | cons p rest ih =>
    obtain ⟨k0, l⟩ := p
    by_cases h0 : k0 = k
    · have hk0 : k0 ≠ k' := by
        rw [h0]
        exact h
      rw [mapAppend, if_pos h0]
      simp [lookupGroup, hk0]
    · rw [mapAppend, if_neg h0]
      by_cases h1 : k0 = k' <;> simp [lookupGroup, h1, ih]

/-- Key membership after an append. -/
theorem mem_keys_mapAppend (m : GroupMap) (k k' : String × String)
    (r : AudioRecord) :
    k' ∈ keysOf (mapAppend m k r) ↔ k' ∈ keysOf m ∨ k' = k := by
  induction m with
  | nil =>
    rw [mapAppend, keysOf_cons]
    simp [keysOf]
  | cons p rest ih =>
    obtain ⟨k0, l⟩ := p
    by_cases h : k0 = k
    · subst h
      rw [mapAppend, if_pos rfl, keysOf_cons, keysOf_cons]
      simp only [List.mem_cons]
      tauto
    · rw [mapAppend, if_neg h, keysOf_cons, keysOf_cons]
      simp only [List.mem_cons, ih]
      tauto

/-- Appending under an existing key keeps the key list unchanged. -/
theorem keys_mapAppend_of_mem (m : GroupMap) (k : String × String)
    (r : AudioRecord) (h : k ∈ keysOf m) :
    keysOf (mapAppend m k r) = keysOf m := by
  induction m with
  | nil => simp [keysOf] at h
  | cons p rest ih =>
    obtain ⟨k0, l⟩ := p
    by_cases h0 : k0 = k
    · rw [mapAppend, if_pos h0, keysOf_cons, keysOf_cons]
    · have hr : k ∈ keysOf rest := by
        rw [keysOf_cons] at h
        rcases List.mem_cons.mp h with h1 | h1
        · exact absurd h1.symm h0
        · exact h1
      rw [mapAppend, if_neg h0, keysOf_cons, keysOf_cons, ih hr]

/-- Appending under a new key appends it to the key list. -/
theorem keys_mapAppend_of_not_mem (m : GroupMap) (k : String × String)
    (r : AudioRecord) (h : k ∉ keysOf m) :
    keysOf (mapAppend m k r) = keysOf m ++ [k] := by
  induction m with
  | nil =>
    rw [mapAppend, keysOf_cons]
    simp [keysOf]
  | cons p rest ih =>
    obtain ⟨k0, l⟩ := p
    by_cases h0 : k0 = k
    · subst h0
      exact absurd (by rw [keysOf_cons]; exact List.mem_cons_self _ _) h
    · have hr : k ∉ keysOf rest := fun hk =>
        h (by rw [keysOf_cons]; exact List.mem_cons_of_mem _ hk)
      rw [mapAppend, if_neg h0, keysOf_cons, keysOf_cons, ih hr]
      rfl

/-- Appending preserves distinctness of the keys. -/
theorem nodup_keys_mapAppend (m : GroupMap) (k : String × String)
    (r : AudioRecord) (h : (keysOf m).Nodup) :
    (keysOf (mapAppend m k r)).Nodup := by
  by_cases hk : k ∈ keysOf m
  · rw [keys_mapAppend_of_mem m k r hk]
    exact h
  · rw [keys_mapAppend_of_not_mem m k r hk]
    simp [List.nodup_append, h, hk]

/-- Appending preserves nonemptiness of every group. -/
theorem mapAppend_nonempty (m : GroupMap) (k : String × String)
    (r : AudioRecord) (h : ∀ p ∈ m, p.2 ≠ []) :
    ∀ p ∈ mapAppend m k r, p.2 ≠ [] := by
  induction m with
  | nil =>
    intro p hp
    simp only [mapAppend, List.mem_singleton] at hp
    subst hp
    simp
  | cons q rest ih =>
    obtain ⟨k0, l⟩ := q
    intro p hp
    by_cases h0 : k0 = k
    · rw [mapAppend, if_pos h0] at hp
      rcases List.mem_cons.mp hp with rfl | hp
      · simp
      · exact h p (List.mem_cons_of_mem _ hp)
    · rw [mapAppend, if_neg h0] at hp
      rcases List.mem_cons.mp hp with rfl | hp
      · exact h _ (List.mem_cons_self _ _)
      · exact ih (fun q hq => h q (List.mem_cons_of_mem _ hq)) p hp

/-- Streaming the log appends each key's surviving records, in log order, to
    whatever the accumulator already held for that key. -/
theorem lookupGroup_foldl (env : Env) (log : List LogLine) :
    ∀ (m : GroupMap) (k : String × String),
      lookupGroup (log.foldl (aggStep env) m) k =
        lookupGroup m k ++ recordsFor env log k := by
  induction log with
  | nil =>
    intro m k
    simp [recordsFor]
  | cons line rest ih =>
    intro m k
    simp only [List.foldl_cons, recordsFor, List.filterMap_cons]
    cases line with
    | malformed =>
      simpa [aggStep, lineRecordFor, recordsFor] using ih m k
    | entry e =>
      cases hp : processLine env e with
      | none =>
        simpa [aggStep, hp, lineRecordFor, recordsFor] using ih m k
      | some kr =>
        by_cases hk : kr.1 = k
        · have := ih (mapAppend m kr.1 kr.2) k
          rw [hk] at this
          simp [aggStep, hp, lineRecordFor, hk, recordsFor, this,
            lookupGroup_mapAppend_same]
        · have := ih (mapAppend m kr.1 kr.2) k
          simp [aggStep, hp, lineRecordFor, hk, recordsFor, this,
            lookupGroup_mapAppend_ne m kr.1 k kr.2 hk]

/-- The group the aggregator builds for a key is exactly the list of the
    log's resolvable records for that key, in log order. -/
theorem aggregate_lookup (env : Env) (log : List LogLine)
    (k : String × String) :
    lookupGroup (aggregate env log) k = recordsFor env log k := by
  simpa [aggregate, lookupGroup] using lookupGroup_foldl env log [] k

/-- Streaming the log preserves distinctness of the group keys. -/
theorem nodup_keys_foldl (env : Env) (log : List LogLine) :
    ∀ m : GroupMap, (keysOf m).Nodup →
      (keysOf (log.foldl (aggStep env) m)).Nodup := by
  induction log with
  | nil => exact fun m h => h
  | cons line rest ih =>
    intro m h
    cases line with
    | malformed =>
      simpa only [List.foldl_cons, aggStep] using ih m h
    | entry e =>
      cases hp : processLine env e with
      | none =>
        simp only [List.foldl_cons, aggStep, hp]
        exact ih m h
      | some kr =>
        simp only [List.foldl_cons, aggStep, hp]
        exact ih _ (nodup_keys_mapAppend _ _ _ h)

/-- The word_audio_map has distinct keys. -/
theorem nodup_keys_aggregate (env : Env) (log : List LogLine) :
    (keysOf (aggregate env log)).Nodup :=
  nodup_keys_foldl env log [] (by simp [keysOf])

/-- Every group of the word_audio_map is nonempty: a key is created only
    when its first surviving record is appended. -/
theorem aggregate_nonempty (env : Env) (log : List LogLine) :
    ∀ p ∈ aggregate env log, p.2 ≠ [] := by
  unfold aggregate
  generalize hm : ([] : GroupMap) = m
  have hbase : ∀ p ∈ m, p.2 ≠ [] := by
    subst hm
    simp
  clear hm
  induction log generalizing m with
  | nil => exact hbase
  | cons line rest ih =>
    cases line with
    | malformed =>
      simpa only [List.foldl_cons, aggStep] using ih m hbase
    | entry e =>
      cases hp : processLine env e with
      | none =>
        simp only [List.foldl_cons, aggStep, hp]
        exact ih m hbase
      | some kr =>
        simp only [List.foldl_cons, aggStep, hp]
        exact ih _ (mapAppend_nonempty m kr.1 kr.2 hbase)

/-- Lookup of a present key returns its stored group when keys are distinct. -/
theorem lookupGroup_eq_of_mem :
    ∀ (m : GroupMap) (k : String × String) (l : List AudioRecord),
      (keysOf m).Nodup → (k, l) ∈ m → lookupGroup m k = l := by
  intro m
  induction m with
  | nil => simp
  | cons p rest ih =>
    obtain ⟨k0, l0⟩ := p
    intro k l hnd hm
    rcases List.mem_cons.mp hm with h | h
    · have h1 : k = k0 := congrArg Prod.fst h
      have h2 : l = l0 := congrArg Prod.snd h
      subst h1
      subst h2
      simp [lookupGroup]
    · have hk : k ∈ keysOf rest := List.mem_map_of_mem Prod.fst h
      rw [keysOf_cons] at hnd
      have hnd' := List.nodup_cons.mp hnd
      have h0 : k0 ≠ k := fun he => hnd'.1 (he ▸ hk)
      rw [lookupGroup, if_neg h0]
      exact ih k l hnd'.2 h

/-- A present key's lookup pair is a member of the map. -/
theorem mem_of_mem_keys :
    ∀ (m : GroupMap) (k : String × String),
      k ∈ keysOf m → (k, lookupGroup m k) ∈ m := by
  intro m
  induction m with
  | nil => simp [keysOf]
  | cons p rest ih =>
    obtain ⟨k0, l0⟩ := p
    intro k hk
    by_cases h0 : k0 = k
    · subst h0
      simp [lookupGroup]
    · have hr : k ∈ keysOf rest := by
        rw [keysOf_cons] at hk
        rcases List.mem_cons.mp hk with h1 | h1
        · exact absurd h1.symm h0
        · exact h1
      simp only [lookupGroup, if_neg h0]
      exact List.mem_cons_of_mem _ (ih k hr)

/-- A key with a nonempty group is present. -/
theorem mem_keys_of_lookupGroup_ne (m : GroupMap) (k : String × String)
    (h : lookupGroup m k ≠ []) : k ∈ keysOf m := by
  induction m with
  | nil => simp [lookupGroup] at h
  | cons p rest ih =>
    obtain ⟨k0, l0⟩ := p
    by_cases h0 : k0 = k
    · subst h0
      rw [keysOf_cons]
      exact List.mem_cons_self _ _
    · rw [lookupGroup, if_neg h0] at h
      rw [keysOf_cons]
      exact List.mem_cons_of_mem _ (ih h)

/-- Key list of a group map, head and tail. -/
theorem keysOf_cons' (g : (String × String) × List AudioRecord)
    (rest : GroupMap) : keysOf (g :: rest) = g.1 :: keysOf rest := rfl

/-- Unequal keys have unequal mirrored mdx keys. -/
theorem mdxKey_ne_of_key_ne {k k' : String × String} (h : k ≠ k') :
    (k.2, k.1) ≠ (k'.2, k'.1) := by
  intro he
  exact h (Prod.ext (congrArg Prod.snd he) (congrArg Prod.fst he))

/-- The words table after one flush. -/
theorem flushGroup_words (env : Env) (S : Stores)
    (g : (String × String) × List AudioRecord) :
    (flushGroup env S g).words =
      S.words.filter (fun r => decide (wkey r ≠ g.1)) ++
        [⟨S.nextWordId, g.1.1, g.1.2, generate_html_content env g.2,
          g.2.length⟩] := rfl

/-- The audio_files table after one flush. -/
theorem flushGroup_audio (env : Env) (S : Stores)
    (g : (String × String) × List AudioRecord) :
    (flushGroup env S g).audio =
      S.audio ++ g.2.map (mkAudioRow S.nextWordId) := rfl

/-- The mdx table after one flush. -/
theorem flushGroup_mdx (env : Env) (S : Stores)
    (g : (String × String) × List AudioRecord) :
    (flushGroup env S g).mdx =
      S.mdx.filter (fun r => decide (mkey r ≠ (g.1.2, g.1.1))) ++
        [⟨g.1.2, generate_html_content env g.2, g.1.1, g.2.length⟩] := rfl

/-- Flushing bumps the autoincrement counter by one. -/
theorem nextWordId_flushGroup (env : Env) (S : Stores)
    (g : (String × String) × List AudioRecord) :
    (flushGroup env S g).nextWordId = S.nextWordId + 1 := rfl

/-- Flushing preserves the rowid bound. -/
theorem idBound_flushGroup (env : Env) (S : Stores)
    (g : (String × String) × List AudioRecord) (h : IdBound S) :
    IdBound (flushGroup env S g) := by
  obtain ⟨hw, ha⟩ := h
  constructor
  · intro r hr
    rw [flushGroup_words] at hr
    rw [nextWordId_flushGroup]
    rcases List.mem_append.mp hr with hr | hr
    · exact Nat.lt_succ_of_lt (hw r (List.mem_of_mem_filter hr))
    · rw [List.mem_singleton.mp hr]
      exact Nat.lt_succ_self _
  · intro a ha'
    rw [flushGroup_audio] at ha'
    rw [nextWordId_flushGroup]
    rcases List.mem_append.mp ha' with ha' | ha'
    · exact Nat.lt_succ_of_lt (ha a ha')
    · rcases List.mem_map.mp ha' with ⟨r, _, rfl⟩
      exact Nat.lt_succ_self _

/-- The search of a filtered list agrees with the search of the list when the
    filter keeps everything the search accepts. -/
theorem find?_filter_of_imp {α : Type} (l : List α) (p q : α → Bool)
    (h : ∀ x, p x = true → q x = true) :
    (l.filter q).find? p = l.find? p := by
  induction l with
  | nil => rfl
  | cons a rest ih =>
    by_cases hq : q a
    · rw [List.filter_cons_of_pos hq]
      by_cases hp : p a
      · rw [List.find?_cons_of_pos _ hp, List.find?_cons_of_pos _ hp]
      · rw [List.find?_cons_of_neg _ (by simpa using hp),
          List.find?_cons_of_neg _ (by simpa using hp), ih]
    · have hp : ¬p a = true := fun hpa => hq (h a hpa)
      rw [List.filter_cons_of_neg (by simpa using hq),
        List.find?_cons_of_neg _ (by simpa using hp), ih]

/-- After a flush, the flushed key holds the freshly inserted row. -/
theorem lookupWords_flushGroup_same (env : Env) (S : Stores)
    (g : (String × String) × List AudioRecord) :
    lookupWords (flushGroup env S g) g.1 =
      some ⟨S.nextWordId, g.1.1, g.1.2, generate_html_content env g.2,
        g.2.length⟩ := by
  unfold lookupWords
  rw [flushGroup_words, List.find?_append]
  have h1 : (S.words.filter (fun r => decide (wkey r ≠ g.1))).find?
      (fun r => decide (wkey r = g.1)) = none := by
    rw [List.find?_eq_none]
    intro x hx
    have hne := (List.mem_filter.mp hx).2
    simp only [decide_eq_true_eq] at hne ⊢
    exact hne
  rw [h1]
  have h2 : wkey (⟨S.nextWordId, g.1.1, g.1.2,
      generate_html_content env g.2, g.2.length⟩ : WordsRow) = g.1 := by
    simp [wkey]
  simp [List.find?, h2]

/-- A flush leaves every other key's words row unchanged. -/
theorem lookupWords_flushGroup_ne (env : Env) (S : Stores)
    (g : (String × String) × List AudioRecord) (k : String × String)
    (h : k ≠ g.1) :
    lookupWords (flushGroup env S g) k = lookupWords S k := by
  unfold lookupWords
  rw [flushGroup_words, List.find?_append]
  have h2 : List.find? (fun r => decide (wkey r = k))
      [(⟨S.nextWordId, g.1.1, g.1.2, generate_html_content env g.2,
        g.2.length⟩ : WordsRow)] = none := by
    rw [List.find?_eq_none]
    intro x hx
    rw [List.mem_singleton.mp hx]
    simp only [decide_eq_true_eq, wkey]
    intro he
    exact h he.symm
  rw [h2]
  rw [find?_filter_of_imp S.words _ _ ?_]
  · cases List.find? (fun r => decide (wkey r = k)) S.words <;> rfl
  · intro x hx
    simp only [decide_eq_true_eq] at hx ⊢
    rw [hx]
    exact h

/-- After a flush, the flushed key holds the freshly inserted mdx row. -/
theorem lookupMdx_flushGroup_same (env : Env) (S : Stores)
    (g : (String × String) × List AudioRecord) :
    lookupMdx (flushGroup env S g) (g.1.2, g.1.1) =
      some ⟨g.1.2, generate_html_content env g.2, g.1.1, g.2.length⟩ := by
  unfold lookupMdx
  rw [flushGroup_mdx, List.find?_append]
  have h1 : (S.mdx.filter (fun r => decide (mkey r ≠ (g.1.2, g.1.1)))).find?
      (fun r => decide (mkey r = (g.1.2, g.1.1))) = none := by
    rw [List.find?_eq_none]
    intro x hx
    have hne := (List.mem_filter.mp hx).2
    simp only [decide_eq_true_eq] at hne ⊢
    exact hne
  rw [h1]
  have h2 : mkey (⟨g.1.2, generate_html_content env g.2, g.1.1,
      g.2.length⟩ : MdxRow) = (g.1.2, g.1.1) := by
    simp [mkey]
  simp [List.find?, h2]

/-- A flush leaves every other key's mdx row unchanged. -/
theorem lookupMdx_flushGroup_ne (env : Env) (S : Stores)
    (g : (String × String) × List AudioRecord) (mk : String × String)
    (h : mk ≠ (g.1.2, g.1.1)) :
    lookupMdx (flushGroup env S g) mk = lookupMdx S mk := by
  unfold lookupMdx
  rw [flushGroup_mdx, List.find?_append]
  have h2 : List.find? (fun r => decide (mkey r = mk))
      [(⟨g.1.2, generate_html_content env g.2, g.1.1, g.2.length⟩ :
        MdxRow)] = none := by
    rw [List.find?_eq_none]
    intro x hx
    rw [List.mem_singleton.mp hx]
    simp only [decide_eq_true_eq, mkey]
    intro he
    exact h he.symm
  rw [h2]
  rw [find?_filter_of_imp S.mdx _ _ ?_]
  · cases List.find? (fun r => decide (mkey r = mk)) S.mdx <;> rfl
  · intro x hx
    simp only [decide_eq_true_eq] at hx ⊢
    rw [hx]
    exact h

/-- The audio rows under the freshly assigned rowid are exactly the rows of
    the group just flushed. -/
theorem audio_filter_flushGroup_new (env : Env) (S : Stores)
    (g : (String × String) × List AudioRecord) (h : IdBound S) :
    (flushGroup env S g).audio.filter
        (fun a => decide (a.word_id = S.nextWordId)) =
      g.2.map (mkAudioRow S.nextWordId) := by
  rw [flushGroup_audio, List.filter_append]
  have h1 : S.audio.filter (fun a => decide (a.word_id = S.nextWordId)) = [] := by
    rw [List.filter_eq_nil_iff]
    intro a ha
    have := h.2 a ha
    simp only [decide_eq_true_eq]
    omega
  have h2 : (g.2.map (mkAudioRow S.nextWordId)).filter
      (fun a => decide (a.word_id = S.nextWordId)) =
        g.2.map (mkAudioRow S.nextWordId) := by
    rw [List.filter_eq_self]
    intro a ha
    rcases List.mem_map.mp ha with ⟨r, _, rfl⟩
    simp [mkAudioRow]
  rw [h1, h2, List.nil_append]

/-- The audio rows under an already-used rowid are unchanged by a flush. -/
theorem audio_filter_flushGroup_old (env : Env) (S : Stores)
    (g : (String × String) × List AudioRecord) (i : Nat)
    (hi : i < S.nextWordId) :
    (flushGroup env S g).audio.filter (fun a => decide (a.word_id = i)) =
      S.audio.filter (fun a => decide (a.word_id = i)) := by
  rw [flushGroup_audio, List.filter_append]
  have h2 : (g.2.map (mkAudioRow S.nextWordId)).filter
      (fun a => decide (a.word_id = i)) = [] := by
    rw [List.filter_eq_nil_iff]
    intro a ha
    rcases List.mem_map.mp ha with ⟨r, _, rfl⟩
    simp only [mkAudioRow, decide_eq_true_eq]
    omega
  rw [h2, List.append_nil]

/-- Unfolding of the write loop. -/
theorem flushAll_cons (env : Env) (S : Stores)
    (g : (String × String) × List AudioRecord) (gs : GroupMap) :
    flushAll env S (g :: gs) = flushAll env (flushGroup env S g) gs := rfl

/-- The write loop preserves the rowid bound. -/
theorem idBound_flushAll (env : Env) (gs : GroupMap) :
    ∀ S : Stores, IdBound S → IdBound (flushAll env S gs) := by
  induction gs with
  | nil => exact fun S h => h
  | cons g rest ih => exact fun S h => ih _ (idBound_flushGroup env S g h)

/-- The autoincrement counter never decreases along the write loop. -/
theorem nextWordId_le_flushAll (env : Env) (gs : GroupMap) :
    ∀ S : Stores, S.nextWordId ≤ (flushAll env S gs).nextWordId := by
  induction gs with
  | nil => exact fun S => le_refl _
  | cons g rest ih =>
    intro S
    have h1 : S.nextWordId ≤ (flushGroup env S g).nextWordId := by
      rw [nextWordId_flushGroup]
      omega
    exact le_trans h1 (ih _)

/-- Keys the write loop never flushes keep their words row, their mdx row
    and the audio rows of every rowid already in use. -/
theorem flushAll_untouched (env : Env) (gs : GroupMap) :
    ∀ (S : Stores) (k : String × String), k ∉ keysOf gs → IdBound S →
      lookupWords (flushAll env S gs) k = lookupWords S k ∧
      lookupMdx (flushAll env S gs) (k.2, k.1) = lookupMdx S (k.2, k.1) ∧
      ∀ i < S.nextWordId,
        (flushAll env S gs).audio.filter (fun a => decide (a.word_id = i)) =
          S.audio.filter (fun a => decide (a.word_id = i)) := by
  induction gs with
  | nil => exact fun S k _ _ => ⟨rfl, rfl, fun _ _ => rfl⟩
  | cons g rest ih =>
    intro S k hk hb
    have hkg : k ≠ g.1 := by
      intro he
      exact hk (by rw [keysOf_cons', he]; exact List.mem_cons_self _ _)
    have hk' : k ∉ keysOf rest := fun hkr =>
      hk (by rw [keysOf_cons']; exact List.mem_cons_of_mem _ hkr)
    obtain ⟨h1, h2, h3⟩ := ih (flushGroup env S g) k hk'
      (idBound_flushGroup env S g hb)
    refine ⟨?_, ?_, ?_⟩
    · rw [flushAll_cons, h1, lookupWords_flushGroup_ne env S g k hkg]
    · rw [flushAll_cons, h2,
        lookupMdx_flushGroup_ne env S g _ (mdxKey_ne_of_key_ne hkg)]
    · intro i hi
      rw [flushAll_cons,
        h3 i (by rw [nextWordId_flushGroup]; omega),
        audio_filter_flushGroup_old env S g i hi]

/-- Per-key outcome of the write loop: each group of a distinct-keyed map
    ends up as one words row with the rendered content and the group length
    as audio_count, with exactly one audio child row per record of the group
    joined under the live rowid, and one mirrored mdx row — regardless of
    the starting store state. -/
theorem flushAll_lookup_of_mem (env : Env) (gs : GroupMap) :
    ∀ (S : Stores) (k : String × String) (l : List AudioRecord),
      (keysOf gs).Nodup → (k, l) ∈ gs → IdBound S →
      ∃ w, lookupWords (flushAll env S gs) k = some w ∧
        wcontent w = (generate_html_content env l, l.length) ∧
        (((flushAll env S gs).audio.filter
            (fun a => decide (a.word_id = w.id))).map payloadOf =
          l.map recPayload) ∧
        lookupMdx (flushAll env S gs) (k.2, k.1) =
          some ⟨k.2, generate_html_content env l, k.1, l.length⟩ := by
  induction gs with
  | nil =>
    intro S k l _ hm
    simp at hm
  | cons g rest ih =>
    intro S k l hnd hm hb
    rw [keysOf_cons'] at hnd
    have hnd' := List.nodup_cons.mp hnd
    rcases List.mem_cons.mp hm with h | hm
    · subst h
      have hb' := idBound_flushGroup env S (k, l) hb
      obtain ⟨h1, h2, h3⟩ := flushAll_untouched env rest
        (flushGroup env S (k, l)) k hnd'.1 hb'
      refine ⟨⟨S.nextWordId, k.1, k.2, generate_html_content env l,
        l.length⟩, ?_, rfl, ?_, ?_⟩
      · rw [flushAll_cons, h1]
        exact lookupWords_flushGroup_same env S (k, l)
      · rw [flushAll_cons,
          h3 S.nextWordId (by rw [nextWordId_flushGroup]; omega),
          audio_filter_flushGroup_new env S (k, l) hb]
        rw [List.map_map]
        rfl
      · rw [flushAll_cons, h2]
        exact lookupMdx_flushGroup_same env S (k, l)
    · rw [flushAll_cons]
      exact ih (flushGroup env S g) k l hnd'.2 hm (idBound_flushGroup env S g hb)

/-- Any property preserved by flushing a group of the list holds of both the
    committed and the staged state of the batched write loop. -/
theorem processGroups_inv_aux (env : Env) (P : Stores → Prop) :
    ∀ gs : GroupMap,
      (∀ S g, g ∈ gs → P S → P (flushGroup env S g)) →
      ∀ sess : Session, P sess.committed → P sess.staged →
        P (gs.foldl (stepGroup env) sess).committed ∧
        P (gs.foldl (stepGroup env) sess).staged := by
  intro gs
  induction gs with
  | nil => exact fun _ _ hc hs => ⟨hc, hs⟩
  | cons g rest ih =>
    intro hstep sess hc hs
    rw [List.foldl_cons]
    have hP : P (flushGroup env sess.staged g) :=
      hstep _ g (List.mem_cons_self _ _) hs
    have hstep' : ∀ S g', g' ∈ rest → P S → P (flushGroup env S g') :=
      fun S g' hg' => hstep S g' (List.mem_cons_of_mem _ hg')
    refine ih hstep' (stepGroup env sess g) ?_ ?_
    · unfold stepGroup
      by_cases hmod : (sess.wordCount + 1) % 1000 = 0 <;>
        simp [hmod, hP, hc]
    · unfold stepGroup
      by_cases hmod : (sess.wordCount + 1) % 1000 = 0 <;>
        simp [hmod, hP]

/-- Any property preserved by flushing a group of the word_audio_map and
    true of the fresh stores holds of the store an interrupted run leaves. -/
theorem interruptedStore_inv (env : Env) (log : List LogLine) (j : Nat)
    (P : Stores → Prop)
    (hstep : ∀ S g, g ∈ aggregate env log → P S → P (flushGroup env S g))
    (hinit : P initStores) : P (interruptedStore env log j) := by
  unfold interruptedStore processGroups
  exact (processGroups_inv_aux env P ((aggregate env log).take j)
    (fun S g hg => hstep S g (List.take_subset j _ hg))
    ⟨initStores, initStores, 0⟩ hinit hinit).1

/-- The fresh stores satisfy the rowid bound. -/
theorem idBound_initStores : IdBound initStores :=
  ⟨fun r hr => absurd hr (List.not_mem_nil r),
    fun a ha => absurd ha (List.not_mem_nil a)⟩

/-- C1: interrupting a run after any number of write-loop steps (the store
    rolls back to the batches committed so far) and then running afresh over
    the same input leaves, for every (language, headword) key, the same
    words-row content, the same mdx row, and the same audio child rows of
    the live words row as one uninterrupted run. -/
theorem c1_resumability (env : Env) (log : List LogLine) (j : Nat)
    (k : String × String) :
    (lookupWords (finalStore env log) k).map wcontent =
      (lookupWords (finalStoreFrom env (interruptedStore env log j) log)
        k).map wcontent ∧
    lookupMdx (finalStore env log) (k.2, k.1) =
      lookupMdx (finalStoreFrom env (interruptedStore env log j) log)
        (k.2, k.1) ∧
    childPayloads (finalStore env log) k =
      childPayloads (finalStoreFrom env (interruptedStore env log j) log)
        k := by
  have hnd := nodup_keys_aggregate env log
  have hbInt : IdBound (interruptedStore env log j) :=
    interruptedStore_inv env log j IdBound
      (fun S g _ h => idBound_flushGroup env S g h) idBound_initStores
  simp only [finalStore, finalStoreFrom]
  by_cases hk : k ∈ keysOf (aggregate env log)
  · have hmem := mem_of_mem_keys _ k hk
    obtain ⟨w1, hw1, hc1, ha1, hm1⟩ := flushAll_lookup_of_mem env
      (aggregate env log) initStores k _ hnd hmem idBound_initStores
    obtain ⟨w2, hw2, hc2, ha2, hm2⟩ := flushAll_lookup_of_mem env
      (aggregate env log) (interruptedStore env log j) k _ hnd hmem hbInt
    refine ⟨?_, ?_, ?_⟩
    · rw [hw1, hw2]
      simp [hc1, hc2]
    · rw [hm1, hm2]
    · unfold childPayloads
      rw [hw1, hw2]
      simp only
      rw [ha1, ha2]
  · obtain ⟨h1w, h1m, _⟩ := flushAll_untouched env (aggregate env log)
      initStores k hk idBound_initStores
    obtain ⟨h2w, h2m, _⟩ := flushAll_untouched env (aggregate env log)
      (interruptedStore env log j) k hk hbInt
    have hint : lookupWords (interruptedStore env log j) k = none ∧
        lookupMdx (interruptedStore env log j) (k.2, k.1) = none := by
      refine interruptedStore_inv env log j
        (fun S => lookupWords S k = none ∧ lookupMdx S (k.2, k.1) = none)
        ?_ ⟨rfl, rfl⟩
      intro S g hg hS
      have hkg : k ≠ g.1 := by
        intro he
        exact hk (by rw [he]; exact List.mem_map_of_mem Prod.fst hg)
      exact ⟨by rw [lookupWords_flushGroup_ne env S g k hkg]; exact hS.1,
        by rw [lookupMdx_flushGroup_ne env S g _ (mdxKey_ne_of_key_ne hkg)]
           exact hS.2⟩
    refine ⟨?_, ?_, ?_⟩
    · rw [h1w, h2w, hint.1]
      rfl
    · rw [h1m, h2m, hint.2]
      rfl
    · unfold childPayloads
      rw [h1w, h2w, hint.1]
      rfl

/-- Per-key characterization of the words rows of an uninterrupted run: a
    stored row means the key collected a nonempty record list, and the row
    carries the rendered content, the full record count, and one child audio
    row per collected record. -/
theorem finalStore_words_char (env : Env) (log : List LogLine)
    (k : String × String) (w : WordsRow)
    (h : lookupWords (finalStore env log) k = some w) :
    recordsFor env log k ≠ [] ∧
    wcontent w = (generate_html_content env (recordsFor env log k),
      (recordsFor env log k).length) ∧
    ((finalStore env log).audio.filter
        (fun a => decide (a.word_id = w.id))).map payloadOf =
      (recordsFor env log k).map recPayload := by
  have hnd := nodup_keys_aggregate env log
  simp only [finalStore, finalStoreFrom] at h ⊢
  by_cases hk : k ∈ keysOf (aggregate env log)
  · have hmem := mem_of_mem_keys _ k hk
    have hlook := aggregate_lookup env log k
    obtain ⟨w1, hw1, hc1, ha1, _⟩ := flushAll_lookup_of_mem env
      (aggregate env log) initStores k _ hnd hmem idBound_initStores
    have hw : w1 = w := Option.some.inj (hw1.symm.trans h)
    subst hw
    rw [hlook] at hc1 ha1
    refine ⟨?_, hc1, ha1⟩
    rw [← hlook]
    exact aggregate_nonempty env log _ hmem
  · obtain ⟨h1w, _, _⟩ := flushAll_untouched env (aggregate env log)
      initStores k hk idBound_initStores
    rw [h1w] at h
    exact absurd h (by simp [lookupWords, initStores])

/-- Per-key characterization of the mdx rows of an uninterrupted run. -/
theorem finalStore_mdx_char (env : Env) (log : List LogLine)
    (k : String × String) (m : MdxRow)
    (h : lookupMdx (finalStore env log) (k.2, k.1) = some m) :
    recordsFor env log k ≠ [] ∧
    m = ⟨k.2, generate_html_content env (recordsFor env log k), k.1,
      (recordsFor env log k).length⟩ := by
  have hnd := nodup_keys_aggregate env log
  simp only [finalStore, finalStoreFrom] at h ⊢
  by_cases hk : k ∈ keysOf (aggregate env log)
  · have hmem := mem_of_mem_keys _ k hk
    have hlook := aggregate_lookup env log k
    obtain ⟨w1, _, _, _, hm1⟩ := flushAll_lookup_of_mem env
      (aggregate env log) initStores k _ hnd hmem idBound_initStores
    have hm : m = _ := Option.some.inj (h.symm.trans hm1)
    rw [hlook] at hm
    refine ⟨?_, hm⟩
    rw [← hlook]
    exact aggregate_nonempty env log _ hmem
  · obtain ⟨_, h1m, _⟩ := flushAll_untouched env (aggregate env log)
      initStores k hk idBound_initStores
    rw [h1m] at h
    exact absurd h (by simp [lookupMdx, initStores])

/-- One flush keeps at most one words row per key. -/
theorem words_key_count_flushGroup (env : Env) (S : Stores)
    (g : (String × String) × List AudioRecord) (k : String × String)
    (h : (S.words.filter (fun r => decide (wkey r = k))).length ≤ 1) :
    ((flushGroup env S g).words.filter
      (fun r => decide (wkey r = k))).length ≤ 1 := by
  rw [flushGroup_words, List.filter_append, List.length_append]
  by_cases hk : k = g.1
  · have h1 : (S.words.filter (fun r => decide (wkey r ≠ g.1))).filter
        (fun r => decide (wkey r = k)) = [] := by
      rw [List.filter_eq_nil_iff]
      intro x hx
      have hne := (List.mem_filter.mp hx).2
      simp only [decide_eq_true_eq] at hne ⊢
      rw [hk]
      exact hne
    rw [h1]
    simp [List.length_filter_le]
    exact List.length_filter_le _ _
  · have h2 : List.filter (fun r => decide (wkey r = k))
        [(⟨S.nextWordId, g.1.1, g.1.2, generate_html_content env g.2,
          g.2.length⟩ : WordsRow)] = [] := by
      rw [List.filter_eq_nil_iff]
      intro x hx
      rw [List.mem_singleton.mp hx]
      simp only [decide_eq_true_eq, wkey]
      intro he
      exact hk he.symm
    rw [h2]
    have hsub : List.Sublist
        ((S.words.filter (fun r => decide (wkey r ≠ g.1))).filter
          (fun r => decide (wkey r = k)))
        (S.words.filter (fun r => decide (wkey r = k))) :=
      (List.filter_sublist S.words).filter _
    simpa using le_trans hsub.length_le h

/-- The write loop keeps at most one words row per key. -/
theorem words_key_count_flushAll (env : Env) (gs : GroupMap) :
    ∀ (S : Stores) (k : String × String),
      (S.words.filter (fun r => decide (wkey r = k))).length ≤ 1 →
      ((flushAll env S gs).words.filter
        (fun r => decide (wkey r = k))).length ≤ 1 := by
  induction gs with
  | nil => exact fun S k h => h
  | cons g rest ih =>
    intro S k h
    rw [flushAll_cons]
    exact ih _ k (words_key_count_flushGroup env S g k h)

/-- C3: the final complex store has at most one words row per (language,
    headword) key; a stored row's audio_count equals the number of log
    records for that key whose audio file resolved on disk (icon resolution
    plays no part in the count), and exactly one audio_files child row was
    inserted per such record. -/
theorem c3_aggregation_counts (env : Env) (log : List LogLine)
    (k : String × String) :
    ((finalStore env log).words.filter
      (fun r => decide (wkey r = k))).length ≤ 1 ∧
    ∀ w, lookupWords (finalStore env log) k = some w →
      w.audio_count = (recordsFor env log k).length ∧
      ((finalStore env log).audio.filter
          (fun a => decide (a.word_id = w.id))).map payloadOf =
        (recordsFor env log k).map recPayload := by
  constructor
  · simp only [finalStore, finalStoreFrom]
    exact words_key_count_flushAll env (aggregate env log) initStores k
      (by simp [initStores])
  · intro w hw
    obtain ⟨_, hc, ha⟩ := finalStore_words_char env log k w hw
    refine ⟨?_, ha⟩
    have := congrArg Prod.snd hc
    simpa [wcontent] using this

/-- C3 witness: on the cat log the stored row has audio_count 1, matching
    the single resolvable record, with one child row. -/
theorem c3_aggregation_counts_witness :
    (((finalStore envNoIcons logCat).words.filter
      (fun r => decide (wkey r = ("en", "cat")))).length ≤ 1) ∧
    rowCat.audio_count = (recordsFor envNoIcons logCat ("en", "cat")).length ∧
    ((finalStore envNoIcons logCat).audio.filter
        (fun a => decide (a.word_id = rowCat.id))).map payloadOf =
      (recordsFor envNoIcons logCat ("en", "cat")).map recPayload :=
  ⟨(c3_aggregation_counts envNoIcons logCat ("en", "cat")).1,
    ((c3_aggregation_counts envNoIcons logCat ("en", "cat")).2 rowCat rfl).1,
    ((c3_aggregation_counts envNoIcons logCat ("en", "cat")).2 rowCat rfl).2⟩

/-- Every words row of the write loop came from the starting state or from
    some flushed group, whose rendered content and length it carries. -/
theorem flushAll_words_mem (env : Env) (gs : GroupMap) :
    ∀ (S : Stores) (r : WordsRow), r ∈ (flushAll env S gs).words →
      r ∈ S.words ∨ ∃ g ∈ gs,
        wcontent r = (generate_html_content env g.2, g.2.length) := by
  induction gs with
  | nil => exact fun S r h => Or.inl h
  | cons g rest ih =>
    intro S r h
    rw [flushAll_cons] at h
    rcases ih _ r h with h' | ⟨g', hg', hc⟩
    · rw [flushGroup_words] at h'
      rcases List.mem_append.mp h' with h'' | h''
      · exact Or.inl (List.mem_of_mem_filter h'')
      · refine Or.inr ⟨g, List.mem_cons_self _ _, ?_⟩
        rw [List.mem_singleton.mp h'']
        rfl
    · exact Or.inr ⟨g', List.mem_cons_of_mem _ hg', hc⟩

/-- Every mdx row of the write loop came from the starting state or from
    some flushed group. -/
theorem flushAll_mdx_mem (env : Env) (gs : GroupMap) :
    ∀ (S : Stores) (r : MdxRow), r ∈ (flushAll env S gs).mdx →
      r ∈ S.mdx ∨ ∃ g ∈ gs,
        r = ⟨g.1.2, generate_html_content env g.2, g.1.1, g.2.length⟩ := by
  induction gs with
  | nil => exact fun S r h => Or.inl h
  | cons g rest ih =>
    intro S r h
    rw [flushAll_cons] at h
    rcases ih _ r h with h' | ⟨g', hg', hc⟩
    · rw [flushGroup_mdx] at h'
      rcases List.mem_append.mp h' with h'' | h''
      · exact Or.inl (List.mem_of_mem_filter h'')
      · exact Or.inr ⟨g, List.mem_cons_self _ _, List.mem_singleton.mp h''⟩
    · exact Or.inr ⟨g', List.mem_cons_of_mem _ hg', hc⟩

/-- Shape of the rendered snippet: the wrapper, then the item blocks, then
    the stylesheet when some item survived, then the closing tag. -/
theorem generate_html_eq (env : Env) (l : List AudioRecord) :
    generate_html_content env l =
      wrapperOpen ++ concatParts (renderItems env (sortVotesDesc l) ++
        (if renderItems env (sortVotesDesc l) ≠ [] then [styleBlock]
         else []) ++ ["</div>"]) := by
  unfold generate_html_content
  by_cases h : renderItems env (sortVotesDesc l) = [] <;>
    simp [h, concatParts, List.cons_append, List.append_assoc]

/-- Every rendered snippet starts with the wrapper element. -/
theorem generate_html_starts (env : Env) (l : List AudioRecord) :
    ∃ t, generate_html_content env l = wrapperOpen ++ t :=
  ⟨_, generate_html_eq env l⟩

/-- C10: every words row and every mdx row written by a run has audio_count
    at least 1 and html beginning with the wrapper element, and no key is
    stored unless at least one of its log records passed audio resolution. -/
theorem c10_written_entries (env : Env) (log : List LogLine) :
    (∀ w ∈ (finalStore env log).words,
      1 ≤ w.audio_count ∧ ∃ t, w.html_content = wrapperOpen ++ t) ∧
    (∀ m ∈ (finalStore env log).mdx,
      1 ≤ m.audio_count ∧ ∃ t, m.paraphrase = wrapperOpen ++ t) ∧
    (∀ k, (lookupWords (finalStore env log) k).isSome →
      recordsFor env log k ≠ []) := by
  refine ⟨?_, ?_, ?_⟩
  · intro w hw
    simp only [finalStore, finalStoreFrom] at hw
    rcases flushAll_words_mem env (aggregate env log) initStores w hw with
      h | ⟨g, hg, hc⟩
    · simp [initStores] at h
    · have hne := aggregate_nonempty env log g hg
      have hcnt := congrArg Prod.snd hc
      have hhtml := congrArg Prod.fst hc
      simp only [wcontent] at hcnt hhtml
      constructor
      · rw [hcnt]
        have : g.2.length ≠ 0 := by
          simpa [List.length_eq_zero] using hne
        omega
      · rw [hhtml]
        exact generate_html_starts env g.2
  · intro m hm
    simp only [finalStore, finalStoreFrom] at hm
    rcases flushAll_mdx_mem env (aggregate env log) initStores m hm with
      h | ⟨g, hg, hc⟩
    · simp [initStores] at h
    · have hne := aggregate_nonempty env log g hg
      subst hc
      constructor
      · have : g.2.length ≠ 0 := by
          simpa [List.length_eq_zero] using hne
        simpa using Nat.one_le_iff_ne_zero.mpr this
      · exact generate_html_starts env g.2
  · intro k hs
    by_cases hk : k ∈ keysOf (aggregate env log)
    · have hmem := mem_of_mem_keys _ k hk
      rw [← aggregate_lookup env log k]
      exact aggregate_nonempty env log _ hmem
    · obtain ⟨h1w, _, _⟩ := flushAll_untouched env (aggregate env log)
        initStores k hk idBound_initStores
      simp only [finalStore, finalStoreFrom] at hs
      rw [h1w] at hs
      exact absurd hs (by simp [lookupWords, initStores])

/-- C10 witness: the cat run's stored row has audio_count 1, its html starts
    with the wrapper, and its key has a resolvable record. -/
theorem c10_written_entries_witness :
    (1 ≤ rowCat.audio_count ∧ ∃ t, rowCat.html_content = wrapperOpen ++ t) ∧
    recordsFor envNoIcons logCat ("en", "cat") ≠ [] :=
  ⟨(c10_written_entries envNoIcons logCat).1 rowCat (by decide),
    (c10_written_entries envNoIcons logCat).2.2 ("en", "cat") (by decide)⟩

/-- Icon resolution always fails under the empty country mapping. -/
theorem get_icon_path_empty (env : Env) (h : env.mappings = [])
    (gender country : String) : get_icon_path env gender country = none := by
  unfold get_icon_path
  rw [h]
  rfl

/-- Under the empty country mapping every record is skipped in rendering. -/
theorem renderItems_empty_mappings (env : Env) (h : env.mappings = []) :
    ∀ l : List AudioRecord, renderItems env l = [] := by
  intro l
  induction l with
  | nil => rfl
  | cons a rest ih =>
    rw [renderItems, get_icon_path_empty env h, ih]

/-- Under the empty country mapping every snippet is the bare wrapper. -/
theorem generate_html_empty_mappings (env : Env) (h : env.mappings = [])
    (l : List AudioRecord) : generate_html_content env l = bareWrapper := by
  rw [generate_html_eq, renderItems_empty_mappings env h]
  decide

/-- C9: a missing or malformed country mappings file does not abort the run;
    the mapping loads as empty, every icon resolution fails, every record is
    skipped in rendering, and every stored words and mdx row carries the bare
    wrapper as html while audio_count still counts the full group. -/
theorem c9_missing_mappings (fs : FS)
    (hm : fs.mappingsFile = .missing ∨ fs.mappingsFile = .malformed)
    (hroot : fs.rootExists = true) (hicons : fs.iconsExists = true)
    (hmeta : fs.metadataExists = true) :
    (envOf fs).mappings = [] ∧
    (∀ gender country, get_icon_path (envOf fs) gender country = none) ∧
    (∀ l, renderItems (envOf fs) l = []) ∧
    (∀ l, generate_html_content (envOf fs) l = bareWrapper) ∧
    runProgram fs = .completed (finalStore (envOf fs) fs.log) ∧
    (∀ k w, lookupWords (finalStore (envOf fs) fs.log) k = some w →
      w.html_content = bareWrapper ∧
      w.audio_count = (recordsFor (envOf fs) fs.log k).length) ∧
    (∀ k m, lookupMdx (finalStore (envOf fs) fs.log) (k.2, k.1) = some m →
      m.paraphrase = bareWrapper ∧
      m.audio_count = (recordsFor (envOf fs) fs.log k).length) := by
  have hmaps : (envOf fs).mappings = [] := by
    rcases hm with hm | hm <;> simp [envOf, hm, load_country_mappings]
  refine ⟨hmaps, get_icon_path_empty _ hmaps,
    renderItems_empty_mappings _ hmaps,
    generate_html_empty_mappings _ hmaps, ?_, ?_, ?_⟩
  · simp [runProgram, hroot, hicons, hmeta]
  · intro k w hw
    obtain ⟨_, hc, _⟩ := finalStore_words_char (envOf fs) fs.log k w hw
    have hcnt := congrArg Prod.snd hc
    have hhtml := congrArg Prod.fst hc
    simp only [wcontent] at hcnt hhtml
    rw [generate_html_empty_mappings _ hmaps] at hhtml
    exact ⟨hhtml, hcnt⟩
  · intro k m hm'
    obtain ⟨_, hc⟩ := finalStore_mdx_char (envOf fs) fs.log k m hm'
    subst hc
    exact ⟨generate_html_empty_mappings _ hmaps _, rfl⟩

/-- C9 witness: the cat run with country_mappings.json missing completes and
    stores the bare wrapper with audio_count 1. -/
theorem c9_missing_mappings_witness :
    (envOf fsMappingsMissing).mappings = [] ∧
    runProgram fsMappingsMissing =
      .completed (finalStore (envOf fsMappingsMissing) fsMappingsMissing.log) ∧
    rowCat.html_content = bareWrapper ∧
    rowCat.audio_count =
      (recordsFor (envOf fsMappingsMissing) fsMappingsMissing.log
        ("en", "cat")).length :=
  ⟨(c9_missing_mappings fsMappingsMissing (Or.inl rfl) rfl rfl rfl).1,
    (c9_missing_mappings fsMappingsMissing (Or.inl rfl) rfl rfl rfl).2.2.2.2.1,
    ((c9_missing_mappings fsMappingsMissing (Or.inl rfl) rfl rfl rfl).2.2.2.2.2.1
      ("en", "cat") rowCat rfl).1,
    ((c9_missing_mappings fsMappingsMissing (Or.inl rfl) rfl rfl rfl).2.2.2.2.2.1
      ("en", "cat") rowCat rfl).2⟩

end Forvo
